import Mathlib

/-!
Shallow embedding of the decoding-table generator and encoder/decoder of
`src/frontend/src/index.ts` (an educational multiplication cipher).

Modelling conventions:
* JavaScript 32-bit coercions (`>>> 0`, `ToInt32` performed by every bitwise
  operator) are made explicit as `% 2 ^ 32` on natural numbers; working with
  the unsigned residue is observationally equal to JS signed int32 values,
  because every operation used by the source (`+`, `Math.imul`, `^`, `|`,
  unsigned shifts) depends only on, and is congruent for, the residue mod 2^32.
* JS `number` arithmetic on the letter-budget bookkeeping is modelled over `ℚ`
  (the values are dyadic-rational in the source; none of the theorems below
  depend on the outcome of a budget comparison, only on the control structure).
* A JS `Record` with numeric keys enumerates its entries by ascending key;
  a `DecodingTable` is therefore represented as an association list kept
  sorted by key (`recordSet` inserts/overwrites at the sorted position).
  A `Record` with string keys (the per-letter budgets) enumerates in
  insertion order; it is an association list in insertion order.
* A thrown `TypeError` (indexing into `undefined`) is modelled as `none`.
-/

namespace MultCipher

/-- `2 ^ 32`, the modulus of all JavaScript 32-bit coercions. -/
def M32 : Nat := 2 ^ 32

/-- `Math.imul`: 32-bit multiplication (result taken mod `2 ^ 32`). -/
def imul (a b : Nat) : Nat := (a * b) % M32

/-- The mixing rounds of the Mulberry32 generator, from `initializeRandom`:
`t = Math.imul(t ^ t >>> 15, t | 1); t ^= t + Math.imul(t ^ t >>> 7, t | 61);
return ((t ^ t >>> 14) >>> 0)` (the final `/ 4294967296` is applied by callers
where a real number is needed). -/
def mulberryMix (t0 : Nat) : Nat :=
  let t1 := imul (t0 ^^^ (t0 >>> 15)) (t0 ||| 1)
  let t2 := (t1 ^^^ ((t1 + imul (t1 ^^^ (t1 >>> 7)) (t1 ||| 61)) % M32)) % M32
  (t2 ^^^ (t2 >>> 14)) % M32

/-- One call of the generator returned by `initializeRandom`: the captured
`seed` variable is advanced by `0x6D2B79F5` and the mixed value is returned
together with the new state.  The returned `Nat` is the numerator of the
produced float (`value = out / 2 ^ 32`). -/
def nextRand (s : Nat) : Nat × Nat :=
  let t := (s + 0x6D2B79F5) % M32
  (mulberryMix t, t)

/-- `initializeRandom(seed)`: the initial internal state.  JS accepts any
(possibly negative) number; only its residue mod `2 ^ 32` is observable. -/
def initializeRandom (seed : Int) : Nat := (seed % (2 ^ 32 : Nat)).toNat

/-- The value of the `n`-th call (0-based) of a generator seeded with `seed`,
as the numerator over `2 ^ 32`. -/
def mulberryValue (seed : Int) : Nat → Nat
  | 0 => (nextRand (initializeRandom seed)).1
  | n + 1 => (nextRand (mulberryState seed n)).1
where
  /-- The internal state after `n + 1` calls. -/
  mulberryState (seed : Int) : Nat → Nat
  | 0 => (nextRand (initializeRandom seed)).2
  | n + 1 => (nextRand (mulberryState seed n)).2

/-- The `n`-th float produced by `initializeRandom(seed)`, as a rational. -/
def randomStream (seed : Int) (n : Nat) : ℚ := (mulberryValue seed n : ℚ) / (M32 : ℚ)

/-- One round of the string hash `hash` of the source:
`h = Math.imul(h ^ str.charCodeAt(i), 3432918353); h = h << 13 | h >>> 19`. -/
def hashRound (h c : Nat) : Nat :=
  let h1 := imul (h ^^^ c) 3432918353
  (((h1 <<< 13) % M32) ||| (h1 >>> 19)) % M32

/-- `hash(str)`: the MurmurHash3-style string hash of the source, over the
code units of the string (for the messages considered in the claims all
characters lie in the BMP, where UTF-16 code units and code points agree). -/
def hash (str : String) : Nat :=
  let h0 := (1779033703 ^^^ str.length) % M32
  let h := str.data.foldl (fun h c => hashRound h c.toNat) h0
  let h1 := imul (h ^^^ (h >>> 16)) 2246822507
  let h2 := imul (h1 ^^^ (h1 >>> 13)) 3266489909
  (h2 ^^^ (h2 >>> 16)) % M32

/-- `Math.floor(random() * len)` for a random numerator `r` (the float is
`r / 2 ^ 32`): exact because all quantities involved are far below 2^53. -/
def randIndex (r len : Nat) : Nat := r * len / M32

theorem nextRand_lt (s : Nat) : (nextRand s).1 < M32 := by
  have : 0 < M32 := by norm_num [M32]
  exact Nat.mod_lt _ this

theorem randIndex_lt {r len : Nat} (hr : r < M32) (hlen : 0 < len) :
    randIndex r len < len := by
  have h : r * len < len * M32 := by
    calc r * len = len * r := Nat.mul_comm _ _
    _ < len * M32 := (Nat.mul_lt_mul_left hlen).2 hr
  exact (Nat.div_lt_iff_lt_mul (by norm_num [M32])).2 h

/-! ## Letter distribution -/

/-- `LETTER_DISTRIBUTION` of the source, in its literal insertion order
(`Object.keys` enumerates string keys in insertion order). -/
def LETTER_DISTRIBUTION : List (Char × Nat) :=
  [('A', 8), ('B', 1), ('C', 3), ('D', 3), ('E', 9), ('F', 2), ('G', 1),
   ('H', 1), ('I', 7), ('J', 1), ('K', 1), ('L', 6), ('M', 3), ('N', 7),
   ('O', 5), ('P', 3), ('Q', 2), ('R', 7), ('S', 8), ('T', 7), ('U', 6),
   ('V', 2), ('W', 1), ('X', 1), ('Y', 1), ('Z', 1), (' ', 5)]

/-- `Object.keys(LETTER_DISTRIBUTION)`. -/
def letterKeys : List Char := LETTER_DISTRIBUTION.map (·.1)

/-- The 26 alphabetic letters (the distribution without the space). -/
def lettersAZ : List Char := letterKeys.filter (· ≠ ' ')

/-! ## Reverse table -/

/-- A `Multiplication` of the source: an ordered factor pair. -/
structure Multiplication where
  i : Nat
  j : Nat
deriving Repr, DecidableEq

/-- The enumeration order of `generateReverseTable`: `i` outer and `j` inner,
both from `1` to `gridSize` inclusive. -/
def multiplications (gridSize : Nat) : List Multiplication :=
  (List.range gridSize).flatMap fun i =>
    (List.range gridSize).map fun j => ⟨i + 1, j + 1⟩

/-- `Object.keys(reverseTable)`: the distinct attainable products in ascending
order (JS enumerates integer-like keys in ascending numeric order). -/
def productList (gridSize : Nat) : List Nat :=
  (List.range' 1 (gridSize * gridSize)).filter fun p =>
    (multiplications gridSize).any fun m => m.i * m.j == p

/-- An `Occurrence` of the source: a product and how many factor pairs
produce it. -/
structure Occurrence where
  result : Nat
  times : Nat
deriving Repr, DecidableEq

/-- The `occurrences` array built at the start of `generateDecodingTable`:
one entry per key of the reverse table, in key order, with
`times = reverseTable[result].length`. -/
def occurrences (gridSize : Nat) : List Occurrence :=
  (productList gridSize).map fun p =>
    ⟨p, ((multiplications gridSize).filter fun m => m.i * m.j == p).length⟩

/-! ## JS records -/

/-- A `Record<number, Letter>`: association list sorted by key ascending,
matching the ascending enumeration order of JS integer-like keys. -/
abbrev DecodingTable := List (Nat × Char)

/-- `table[k] = v` on a numeric-keyed record: insert or overwrite, keeping the
entries in ascending key order. -/
def recordSet (t : DecodingTable) (k : Nat) (v : Char) : DecodingTable :=
  match t with
  | [] => [(k, v)]
  | (k1, v1) :: rest =>
    if k < k1 then (k, v) :: (k1, v1) :: rest
    else if k = k1 then (k, v) :: rest
    else (k1, v1) :: recordSet rest k v

/-- `table[k]` on a numeric-keyed record (`none` models `undefined`). -/
def recordGet (t : DecodingTable) (k : Nat) : Option Char :=
  (t.find? fun e => e.1 == k).map (·.2)

/-- The per-letter budget record `remainingPointsPerLetter`
(`Record<Letter, number>`): association list in insertion order, matching the
insertion-order enumeration of JS string keys. -/
abbrev PtsMap := List (Char × ℚ)

/-- `pts[c]` (`none` models `undefined`). -/
def ptsGet (pts : PtsMap) (c : Char) : Option ℚ :=
  (pts.find? fun e => e.1 == c).map (·.2)

/-- `pts[c] -= d` (the key is always present at the call sites). -/
def ptsSub (pts : PtsMap) (c : Char) (d : ℚ) : PtsMap :=
  pts.map fun e => if e.1 = c then (e.1, e.2 - d) else e

/-- `delete pts[c]`. -/
def ptsDel (pts : PtsMap) (c : Char) : PtsMap :=
  pts.filter fun e => e.1 ≠ c

/-- `pts[c] < q`, with the JS convention that a comparison against
`undefined` is false. -/
def ptsLt (pts : PtsMap) (c : Char) (q : ℚ) : Bool :=
  match ptsGet pts c with
  | some r => decide (r < q)
  | none => false

/-! ## Fisher–Yates shuffle -/

/-- `[a[i], a[j]] = [a[j], a[i]]`: swap two positions of a list (identity when
an index is out of range, which never happens at the call site). -/
def listSwap {α : Type} (a : List α) (i j : Nat) : List α :=
  match a[i]?, a[j]? with
  | some x, some y => (a.set i y).set j x
  | _, _ => a

/-- The loop of `shuffle`: the current index counts down from `a.length - 1`
to `1`; each step draws `j = Math.floor(random() * (i + 1))` and swaps. -/
def shuffleAux {α : Type} : Nat → Nat → List α → List α × Nat
  | 0, s, a => (a, s)
  | i + 1, s, a =>
    let rs := nextRand s
    let j := randIndex rs.1 (i + 2)
    shuffleAux i rs.2 (listSwap a (i + 1) j)

/-- `shuffle(a, random)` of the source (Fisher–Yates). -/
def shuffle {α : Type} (a : List α) (s : Nat) : List α × Nat :=
  shuffleAux (a.length - 1) s a

/-! ## Table generation -/

/-- The predicate of the first-pass `findIndex`:
`occurrence.times === 1 || occurrence.times * pointValue <
remainingPointsPerLetter[letter]`. -/
def coverageFits (pv : ℚ) (pts : PtsMap) (letter : Char) (o : Occurrence) : Bool :=
  o.times == 1 ||
    (match ptsGet pts letter with
     | some r => decide ((o.times : ℚ) * pv < r)
     | none => false)

/-- The first pass of `generateDecodingTable` (one iteration per shuffled
letter).  When `findIndex` misses, a random index is drawn; if the remaining
pool is empty, `remainingOccurrences[idx]` is `undefined` and reading
`.result` throws, modelled by `none`. -/
def coveragePass (pv : ℚ) :
    List Char → List Occurrence → PtsMap → DecodingTable → Nat →
      Option (DecodingTable × List Occurrence × PtsMap × Nat)
  | [], occs, pts, table, s => some (table, occs, pts, s)
  | letter :: rest, occs, pts, table, s =>
    let is : Nat × Nat :=
      match occs.findIdx? (coverageFits pv pts letter) with
      | some i => (i, s)
      | none => (randIndex (nextRand s).1 occs.length, (nextRand s).2)
    match occs[is.1]? with
    | none => none
    | some occ =>
      let table1 := recordSet table occ.result letter
      let pts1 := ptsSub pts letter occ.times
      let pts2 := if ptsLt pts1 letter pv then ptsDel pts1 letter else pts1
      coveragePass pv rest (occs.eraseIdx is.1) pts2 table1 is.2

/-- The retry loop of the second pass: up to 3 draws, stopping early when the
drawn letter's budget can absorb `times`
(`remainingPointsPerLetter[chosenLetter] - occurrence.times >= 0`); after the
final draw the sampled letter is kept regardless.  The call sites guarantee
`letters` is nonempty and the drawn index is in range, so the `getD` default
is never used. -/
def pickLetter (letters : List Char) (pts : PtsMap) (times : Nat) :
    Nat → Nat → Char × Nat
  | s, 0 => (' ', s)
  | s, attemptsLeft + 1 =>
    let rs := nextRand s
    let c := letters.getD (randIndex rs.1 letters.length) ' '
    let fits : Bool :=
      match ptsGet pts c with
      | some v => decide (0 ≤ v - (times : ℚ))
      | none => false
    if fits || attemptsLeft == 0 then (c, rs.2)
    else pickLetter letters pts times rs.2 attemptsLeft

/-- The second pass of `generateDecodingTable`: every remaining occurrence is
assigned a letter drawn by `pickLetter` while any letter still has a budget
entry, and the space character otherwise. -/
def fillPass (pv : ℚ) :
    List Occurrence → PtsMap → DecodingTable → Nat → DecodingTable × PtsMap × Nat
  | [], pts, table, s => (table, pts, s)
  | occ :: rest, pts, table, s =>
    let letters := pts.map (·.1)
    if letters.length > 0 then
      let cs := pickLetter letters pts occ.times s 3
      let table1 := recordSet table occ.result cs.1
      let pts1 := ptsSub pts cs.1 occ.times
      let pts2 := if ptsLt pts1 cs.1 (-pv) then ptsDel pts1 cs.1 else pts1
      fillPass pv rest pts2 table1 cs.2
    else
      fillPass pv rest pts (recordSet table occ.result ' ') s

/-- The fixed total letter weight
(`Object.values(LETTER_DISTRIBUTION).reduce((p, v) => p + v, 0)`). -/
def totalLetterWeight : Nat := (LETTER_DISTRIBUTION.map (·.2)).foldl (· + ·) 0

/-- `pointValue = availablePoints / totalLetterWeight` where
`availablePoints = gridSize * gridSize`. -/
def pointValueOf (gridSize : Nat) : ℚ :=
  ((gridSize * gridSize : Nat) : ℚ) / (totalLetterWeight : ℚ)

/-- The initial `remainingPointsPerLetter` record:
`pointValue * LETTER_DISTRIBUTION[letter]` for every letter, in insertion
order. -/
def initialPts (gridSize : Nat) : PtsMap :=
  LETTER_DISTRIBUTION.map fun e => (e.1, pointValueOf gridSize * (e.2 : ℚ))

/-- `generateDecodingTable(gridSize, seed)` of the source: seed the generator,
build the occurrences, shuffle the letters, run the coverage pass and then the
fill pass.  `none` models the `TypeError` thrown when the coverage pass
exhausts the occurrence pool (which happens exactly when the grid has fewer
than 27 distinct products). -/
def generateDecodingTable (gridSize : Nat) (seed : Int) : Option DecodingTable :=
  let sh := shuffle letterKeys (initializeRandom seed)
  (coveragePass (pointValueOf gridSize) sh.1 (occurrences gridSize)
      (initialPts gridSize) [] sh.2).map
    fun res => (fillPass (pointValueOf gridSize) res.2.1 res.2.2.1 res.1 res.2.2.2).1

/-! ## JS string primitives -/

/-- The JS whitespace set trimmed by `String.prototype.trim` (WhiteSpace and
LineTerminator code points). -/
def jsWhitespace (c : Char) : Bool :=
  c.toNat ∈ [9, 10, 11, 12, 13, 32, 160, 0x1680, 0x2000, 0x2001, 0x2002,
    0x2003, 0x2004, 0x2005, 0x2006, 0x2007, 0x2008, 0x2009, 0x200A, 0x2028,
    0x2029, 0x202F, 0x205F, 0x3000, 0xFEFF]

/-- `s.trim()`: drop leading and trailing whitespace. -/
def jsTrim (l : List Char) : List Char :=
  ((l.dropWhile jsWhitespace).reverse.dropWhile jsWhitespace).reverse

/-- `s.toUpperCase()`, per character (the simple case mapping restricted to
basic latin; the theorems only exercise it on characters where this agrees
with JS). -/
def jsToUpper (c : Char) : Char :=
  if 97 ≤ c.toNat ∧ c.toNat ≤ 122 then Char.ofNat (c.toNat - 32) else c

/-- `s.toLowerCase()`, per character (same caveat as `jsToUpper`). -/
def jsToLower (c : Char) : Char :=
  if 65 ≤ c.toNat ∧ c.toNat ≤ 90 then Char.ofNat (c.toNat + 32) else c

/-- Membership in the character class `[A-Z ]`. -/
def isUpperOrSpace (c : Char) : Bool :=
  (65 ≤ c.toNat && c.toNat ≤ 90) || c.toNat == 32

/-- Membership in the character class `[0-9 ]`. -/
def isDigitOrSpace (c : Char) : Bool :=
  (48 ≤ c.toNat && c.toNat ≤ 57) || c.toNat == 32

/-- The decimal digit character of `d` (`d < 10` at every use). -/
def digitChar (d : Nat) : Char := Char.ofNat (48 + d)

/-- The recursion of `natDigits`, driven by structural fuel so that it
reduces inside the kernel; `fuel ≥ n` always holds at the call sites, so the
fuel never runs out before the value is below 10. -/
def natDigitsFuel : Nat → Nat → List Char
  | 0, n => [digitChar n]
  | fuel + 1, n =>
    if n < 10 then [digitChar n]
    else natDigitsFuel fuel (n / 10) ++ [digitChar (n % 10)]

/-- The radix-10 decimal representation of `n`, as JS produces for an integer
key of `Object.entries` (the keys of a `Record<number, _>` are decimal
strings). -/
def natDigits (n : Nat) : List Char := natDigitsFuel n n

theorem natDigitsFuel_congr :
    ∀ (n fuel1 fuel2 : Nat), n ≤ fuel1 → n ≤ fuel2 →
      natDigitsFuel fuel1 n = natDigitsFuel fuel2 n := by
  intro n
  induction n using Nat.strong_induction_on with
  | _ n ih =>
    intro fuel1 fuel2 h1 h2
    cases fuel1 with
    | zero =>
      cases fuel2 with
      | zero => rfl
      | succ m2 =>
        have hn : n = 0 := by omega
        subst hn
        rw [natDigitsFuel, natDigitsFuel, if_pos (by omega)]
    | succ m1 =>
      cases fuel2 with
      | zero =>
        have hn : n = 0 := by omega
        subst hn
        rw [natDigitsFuel, natDigitsFuel, if_pos (by omega)]
      | succ m2 =>
        rw [natDigitsFuel, natDigitsFuel]
        split_ifs with h
        · rfl
        · have hdiv : n / 10 < n := Nat.div_lt_self (by omega) (by omega)
          rw [ih (n / 10) hdiv m1 m2 (by omega) (by omega)]

/-- The defining unfolding of `natDigits`. -/
theorem natDigits_eq (n : Nat) :
    natDigits n = if n < 10 then [digitChar n]
      else natDigits (n / 10) ++ [digitChar (n % 10)] := by
  rw [natDigits]
  cases hn : n with
  | zero => rw [natDigitsFuel, if_pos (by omega)]
  | succ m =>
    rw [natDigitsFuel]
    split_ifs with h
    · rfl
    · rw [natDigits]
      have hdiv : (m + 1) / 10 < m + 1 := Nat.div_lt_self (by omega) (by omega)
      rw [natDigitsFuel_congr ((m + 1) / 10) m ((m + 1) / 10) (by omega) (le_refl _)]

/-- `split(/ +/)`: split on maximal runs of spaces, keeping the empty tokens
that JS produces at the boundaries (the input at the call site contains only
digits and spaces). -/
def splitRunsAux : List Char → List Char → List (List Char)
  | [], acc => [acc.reverse]
  | c :: rest, acc =>
    if c = ' ' then acc.reverse :: splitRunsAux (rest.dropWhile (· = ' ')) []
    else splitRunsAux rest (c :: acc)
termination_by l _ => l.length
decreasing_by
  · have := (List.dropWhile_suffix (l := rest) (fun x => decide (x = ' '))).sublist.length_le
    simp only [List.length_cons]
    omega
  · simp only [List.length_cons]; omega

/-- `split(/ +/)` on a character list. -/
def splitRuns (l : List Char) : List (List Char) := splitRunsAux l []

/-- `parseInt(s, 10)` restricted to the shapes reaching it in `decodeMessage`
(tokens made of decimal digits): the value of the longest digit prefix, or
`none` (JS `NaN`) when there is none. -/
def jsParseInt (l : List Char) : Option Nat :=
  let ds := l.takeWhile fun c => 48 ≤ c.toNat && c.toNat ≤ 57
  if ds.isEmpty then none
  else some (ds.foldl (fun n c => n * 10 + (c.toNat - 48)) 0)

/-! ## Encoder -/

/-- The sanitization step of `encodeMessage`:
`message.trim().toUpperCase().replace(/[^A-Z ]/g, ' ')`. -/
def sanitizeEncode (l : List Char) : List Char :=
  ((jsTrim l).map jsToUpper).map fun c => if isUpperOrSpace c then c else ' '

/-- `normalize` as the round-trip claim defines it: trim, uppercase, replace
every character outside `A`–`Z` and space with a space.  This is exactly the
sanitization step of `encodeMessage`. -/
def normalizeMessage (message : String) : String := ⟨sanitizeEncode message.data⟩

/-- `encodeLetter` of the source.  `Object.entries` lists the table in
ascending key order with decimal-string keys; the emitted token is
`matchingResults[chosenResultIndex][0]`, i.e. the key string of the chosen
entry.  When no entry matches, `matchingResults[0]` is `undefined` and
`[0]` on it throws, modelled by `none`.  (The `random()` call happens before
the failing access, so the state is advanced either way.) -/
def encodeLetter (letter : Char) (table : DecodingTable) (s : Nat) :
    Option (List Char × Nat) :=
  let matchingResults := table.filter fun e => e.2 == letter
  let rs := nextRand s
  match matchingResults[randIndex rs.1 matchingResults.length]? with
  | some e => some (natDigits e.1, rs.2)
  | none => none

/-- The `.map(letter => encodeLetter(...))` loop, threading the per-message
generator state; a throw anywhere aborts the whole encode. -/
def encodeChars : List Char → DecodingTable → Nat → Option (List (List Char))
  | [], _, _ => some []
  | c :: rest, table, s =>
    match encodeLetter c table s with
    | none => none
    | some (tok, s1) => (encodeChars rest table s1).map (tok :: ·)

/-- `Array.prototype.join(' ')`: concatenate tokens with a single space
between consecutive tokens. -/
def joinTokens : List (List Char) → List Char
  | [] => []
  | [t] => t
  | t :: u :: rest => t ++ ' ' :: joinTokens (u :: rest)

/-- `encodeMessage(message, decodingTable)` of the source: the per-message
generator is seeded with `hash(message)` (the raw message), the sanitized
characters are encoded one by one, and the tokens are joined with single
spaces. -/
def encodeMessage (message : String) (table : DecodingTable) : Option String :=
  let s0 := initializeRandom (hash message)
  (encodeChars (sanitizeEncode message.data) table s0).map fun toks =>
    ⟨joinTokens toks⟩

/-! ## Decoder -/

/-- `decodeResult` of the source: a plain table lookup. -/
def decodeResult (result : Nat) (table : DecodingTable) : Option Char :=
  recordGet table result

/-- The token-to-value step of `decodeMessage`:
`const result = parseInt(resultString, 10); return Boolean(result) ? result :
undefined` — `0` and `NaN` are falsy. -/
def decodeToken (tok : List Char) : Option Nat :=
  match jsParseInt tok with
  | some r => if r = 0 then none else some r
  | none => none

/-- JS `Array.prototype.join('')` renders `undefined` as the empty string. -/
def renderJoin (o : Option Char) : List Char :=
  match o with
  | some c => [c]
  | none => []

/-- `decodeMessage(message, decodingTable)` of the source, over characters:
sanitize (`trim`, `toLowerCase`, `replace(/[^0-9 ]/g, '')`), split on space
runs, parse and filter the tokens, look each product up, and join with `''`
(JS `join` renders an `undefined` lookup as the empty string). -/
def decodeChars (l : List Char) (table : DecodingTable) : List Char :=
  let sanitized := ((jsTrim l).map jsToLower).filter isDigitOrSpace
  let results := (splitRuns sanitized).filterMap decodeToken
  (results.map fun r => renderJoin (decodeResult r table)).flatten

/-- `decodeMessage` on strings. -/
def decodeMessage (message : String) (table : DecodingTable) : String :=
  ⟨decodeChars message.data table⟩

/-- Modelled from the claim's words (claim C8), for comparison with
`decodeChars`: strip every character that is not a digit or a space, split on
runs of whitespace into (nonempty) tokens, parse each as a base-10 integer,
silently drop tokens that parse to zero or fail to parse, and let every
surviving integer contribute its table entry, or the empty string when it is
not a key of the table. -/
def decodeCharsClaim (l : List Char) (table : DecodingTable) : List Char :=
  let stripped := l.filter isDigitOrSpace
  let tokens := (splitRuns stripped).filter (fun t => ! t.isEmpty)
  let results := tokens.filterMap decodeToken
  (results.map fun r => renderJoin (recordGet table r)).flatten

/-! ## Lemmas about JS records -/

/-- The key list of a table. -/
def tableKeys (t : DecodingTable) : List Nat := t.map (·.1)

theorem recordGet_cons (e : Nat × Char) (t : DecodingTable) (k : Nat) :
    recordGet (e :: t) k = if e.1 = k then some e.2 else recordGet t k := by
  by_cases h : e.1 = k <;> simp [recordGet, List.find?_cons, h]

theorem recordSet_cons (a : Nat) (w : Char) (t : DecodingTable) (k : Nat) (v : Char) :
    recordSet ((a, w) :: t) k v =
      if k < a then (k, v) :: (a, w) :: t
      else if k = a then (k, v) :: t
      else (a, w) :: recordSet t k v := rfl

theorem recordGet_recordSet_self (t : DecodingTable) (k : Nat) (v : Char) :
    recordGet (recordSet t k v) k = some v := by
  induction t with
  | nil => simp [recordSet, recordGet_cons]
  | cons e rest ih =>
    obtain ⟨a, w⟩ := e
    rw [recordSet_cons]
    split_ifs with h1 h2
    · simp [recordGet_cons]
    · simp [recordGet_cons]
    · have h3 : a ≠ k := fun h => h2 h.symm
      rw [recordGet_cons, if_neg h3]
      exact ih

theorem recordGet_recordSet_ne (t : DecodingTable) {k k' : Nat} (v : Char)
    (h : k' ≠ k) : recordGet (recordSet t k v) k' = recordGet t k' := by
  have hkk : k ≠ k' := fun hh => h hh.symm
  induction t with
  | nil => simp [recordSet, recordGet_cons, recordGet, hkk]
  | cons e rest ih =>
    obtain ⟨a, w⟩ := e
    rw [recordSet_cons]
    split_ifs with h1 h2
    · rw [recordGet_cons, if_neg hkk]
    · subst h2
      rw [recordGet_cons, if_neg hkk, recordGet_cons, if_neg hkk]
    · rw [recordGet_cons, recordGet_cons, ih]

theorem recordGet_isSome_recordSet (t : DecodingTable) (k x : Nat) (v : Char) :
    (recordGet (recordSet t k v) x).isSome ↔ (recordGet t x).isSome ∨ x = k := by
  by_cases h : x = k
  · subst h; simp [recordGet_recordSet_self]
  · simp [recordGet_recordSet_ne t v h, h]

theorem tableKeys_recordSet_subset (t : DecodingTable) (k : Nat) (v : Char) :
    ∀ b ∈ tableKeys (recordSet t k v), b = k ∨ b ∈ tableKeys t := by
  induction t with
  | nil =>
    intro b hb
    simp only [recordSet, tableKeys, List.map_cons, List.map_nil,
      List.mem_singleton] at hb
    exact Or.inl hb
  | cons e rest ih =>
    obtain ⟨a, w⟩ := e
    intro b hb
    rw [recordSet_cons] at hb
    split_ifs at hb with h1 h2
    · simp only [tableKeys, List.map_cons, List.mem_cons] at hb ⊢
      tauto
    · simp only [tableKeys, List.map_cons, List.mem_cons] at hb ⊢
      tauto
    · simp only [tableKeys, List.map_cons, List.mem_cons] at hb ⊢
      rcases hb with hb | hb
      · tauto
      · rcases ih b hb with hh | hh
        · exact Or.inl hh
        · exact Or.inr (Or.inr hh)

theorem tableKeys_recordSet_sorted {t : DecodingTable} (k : Nat) (v : Char)
    (h : (tableKeys t).Pairwise (· < ·)) :
    (tableKeys (recordSet t k v)).Pairwise (· < ·) := by
  induction t with
  | nil => simp [recordSet, tableKeys]
  | cons e rest ih =>
    obtain ⟨a, w⟩ := e
    simp only [tableKeys, List.map_cons, List.pairwise_cons] at h
    rw [recordSet_cons]
    split_ifs with h1 h2
    · simp only [tableKeys, List.map_cons, List.pairwise_cons]
      refine ⟨?_, h.1, h.2⟩
      intro b hb
      rcases List.mem_cons.1 hb with hb | hb
      · omega
      · have := h.1 b hb; omega
    · subst h2
      simp only [tableKeys, List.map_cons, List.pairwise_cons]
      exact ⟨h.1, h.2⟩
    · simp only [tableKeys, List.map_cons, List.pairwise_cons]
      constructor
      · intro b hb
        rcases tableKeys_recordSet_subset rest k v b hb with hb | hb
        · omega
        · exact h.1 b hb
      · exact ih h.2

theorem recordGet_eq_some_of_mem {t : DecodingTable} (hn : (tableKeys t).Nodup)
    {e : Nat × Char} (he : e ∈ t) : recordGet t e.1 = some e.2 := by
  induction t with
  | nil => simp at he
  | cons e1 rest ih =>
    simp only [tableKeys, List.map_cons, List.nodup_cons] at hn
    rcases List.mem_cons.1 he with he | he
    · subst he; simp [recordGet_cons]
    · have hne : e1.1 ≠ e.1 := by
        intro hh
        exact hn.1 (hh ▸ (List.mem_map_of_mem (·.1) he))
      rw [recordGet_cons, if_neg hne]
      exact ih hn.2 he

theorem mem_of_recordGet_eq_some {t : DecodingTable} {k : Nat} {v : Char}
    (h : recordGet t k = some v) : (k, v) ∈ t := by
  unfold recordGet at h
  rcases Option.map_eq_some'.1 h with ⟨e, he, hev⟩
  have hm := List.mem_of_find?_eq_some he
  have hk := List.find?_some he
  simp only [beq_iff_eq] at hk
  have : e = (k, v) := by
    cases e; simp_all
  exact this ▸ hm

theorem pairwise_lt_nodup {l : List Nat} (h : l.Pairwise (· < ·)) : l.Nodup :=
  h.imp (fun hlt => Nat.ne_of_lt hlt)

/-! ## The shuffle permutes its input -/

theorem set_get_cons_perm {α : Type} (x : α) :
    ∀ (t : List α) (k : Nat) (hk : k < t.length),
      (t.get ⟨k, hk⟩ :: t.set k x).Perm (x :: t)
  | a :: s, 0, _ => List.Perm.swap x a s
  | a :: s, k + 1, hk => by
    have hk1 : k < s.length := by simpa using hk
    have step1 : (s.get ⟨k, hk1⟩ :: a :: s.set k x).Perm
        (a :: s.get ⟨k, hk1⟩ :: s.set k x) := List.Perm.swap a _ _
    have step2 : (a :: s.get ⟨k, hk1⟩ :: s.set k x).Perm (a :: x :: s) :=
      (set_get_cons_perm x s k hk1).cons a
    have step3 : (a :: x :: s).Perm (x :: a :: s) := List.Perm.swap x a s
    simpa using (step1.trans step2).trans step3

theorem set_set_swap_perm {α : Type} :
    ∀ (a : List α) (i j : Nat) (hi : i < a.length) (hj : j < a.length),
      ((a.set i (a.get ⟨j, hj⟩)).set j (a.get ⟨i, hi⟩)).Perm a
  | x :: s, 0, 0, _, _ => by simp
  | x :: s, 0, m + 1, _, hj => by
    have hm : m < s.length := by simpa using hj
    simpa using set_get_cons_perm x s m hm
  | x :: s, n + 1, 0, hi, _ => by
    have hn : n < s.length := by simpa using hi
    simpa using set_get_cons_perm x s n hn
  | x :: s, n + 1, m + 1, hi, hj => by
    have hn : n < s.length := by simpa using hi
    have hm : m < s.length := by simpa using hj
    simpa using (set_set_swap_perm s n m hn hm).cons x

theorem listSwap_perm {α : Type} (a : List α) (i j : Nat) :
    (listSwap a i j).Perm a := by
  unfold listSwap
  cases hi : a[i]? with
  | none => cases hj : a[j]? <;> exact List.Perm.refl a
  | some x =>
    cases hj : a[j]? with
    | none => exact List.Perm.refl a
    | some y =>
      rcases List.getElem?_eq_some_iff.1 hi with ⟨hi', hx⟩
      rcases List.getElem?_eq_some_iff.1 hj with ⟨hj', hy⟩
      have hx' : x = a.get ⟨i, hi'⟩ := hx.symm
      have hy' : y = a.get ⟨j, hj'⟩ := hy.symm
      rw [hx', hy']
      exact set_set_swap_perm a i j hi' hj'

theorem shuffleAux_perm {α : Type} (n : Nat) :
    ∀ (s : Nat) (a : List α), ((shuffleAux n s a).1).Perm a := by
  induction n with
  | zero => intro s a; exact List.Perm.refl a
  | succ i ih =>
    intro s a
    simp only [shuffleAux]
    exact (ih _ _).trans (listSwap_perm a (i + 1) _)

theorem shuffle_perm {α : Type} (a : List α) (s : Nat) :
    ((shuffle a s).1).Perm a := shuffleAux_perm _ _ _

/-! ## Coverage and fill pass invariants -/

/-- The products of a list of occurrences. -/
def occResults (occs : List Occurrence) : List Nat := occs.map (·.result)

theorem eraseIdx_map_comm {α β : Type} (f : α → β) :
    ∀ (l : List α) (i : Nat), (l.eraseIdx i).map f = (l.map f).eraseIdx i
  | [], _ => by simp
  | _ :: _, 0 => by simp
  | x :: t, i + 1 => by
    simp only [List.eraseIdx_cons_succ, List.map_cons]
    rw [eraseIdx_map_comm f t i]

theorem not_mem_eraseIdx_of_nodup {α : Type} :
    ∀ {l : List α}, l.Nodup → ∀ {i : Nat} (hi : i < l.length),
      l[i] ∉ l.eraseIdx i := by
  intro l
  induction l with
  | nil => intro _ i hi; simp at hi
  | cons x t ih =>
    intro hn i hi
    cases i with
    | zero => simpa using (List.nodup_cons.1 hn).1
    | succ k =>
      have hk : k < t.length := by simpa using hi
      simp only [List.eraseIdx_cons_succ, List.getElem_cons_succ, List.mem_cons]
      rintro (h | h)
      · exact (List.nodup_cons.1 hn).1 (h ▸ List.getElem_mem hk)
      · exact ih (List.nodup_cons.1 hn).2 hk h

theorem mem_eraseIdx_of_ne {α : Type} :
    ∀ {l : List α} {i : Nat} (hi : i < l.length) {x : α},
      x ∈ l → x ≠ l[i] → x ∈ l.eraseIdx i := by
  intro l
  induction l with
  | nil => intro i hi; simp at hi
  | cons y t ih =>
    intro i hi x hx hne
    cases i with
    | zero =>
      simp only [List.getElem_cons_zero] at hne
      simpa using (List.mem_cons.1 hx).resolve_left hne
    | succ k =>
      have hk : k < t.length := by simpa using hi
      simp only [List.getElem_cons_succ] at hne
      simp only [List.eraseIdx_cons_succ, List.mem_cons]
      rcases List.mem_cons.1 hx with h | h
      · exact Or.inl h
      · exact Or.inr (ih hk h hne)

/-- The coverage pass never fails while the occurrence pool outnumbers the
remaining letters. -/
theorem coveragePass_isSome (pv : ℚ) :
    ∀ (letters : List Char) (occs : List Occurrence) (pts : PtsMap)
      (table : DecodingTable) (s : Nat),
      letters.length ≤ occs.length →
      (coveragePass pv letters occs pts table s).isSome := by
  intro letters
  induction letters with
  | nil => intro occs pts table s _; simp [coveragePass]
  | cons letter rest ih =>
    intro occs pts table s hlen
    simp only [List.length_cons] at hlen
    have hocc : 0 < occs.length := by omega
    simp only [coveragePass]
    rcases hf : occs.findIdx? (coverageFits pv pts letter) with _ | i
    · have hidx : randIndex (nextRand s).1 occs.length < occs.length :=
        randIndex_lt (nextRand_lt s) hocc
      simp only [hf]
      rw [List.getElem?_eq_getElem hidx]
      refine ih _ _ _ _ ?_
      rw [List.length_eraseIdx_of_lt hidx]
      omega
    · have hidx : i < occs.length := by
        rcases List.findIdx?_eq_some_iff_getElem.1 hf with ⟨h1, _⟩
        exact h1
      simp only [hf]
      rw [List.getElem?_eq_getElem hidx]
      refine ih _ _ _ _ ?_
      rw [List.length_eraseIdx_of_lt hidx]
      omega

/-- The structural invariants of the coverage pass: the surviving pool is a
sub-pool; keys outside the original pool are untouched; with a duplicate-free
pool, every processed letter ends up as the value of some pool key, and a key
is present in the output exactly if it was present before or was consumed from
the pool; sortedness of the table keys is preserved. -/
theorem coveragePass_spec (pv : ℚ) :
    ∀ (letters : List Char) (occs : List Occurrence) (pts : PtsMap)
      (table : DecodingTable) (s : Nat)
      (res : DecodingTable × List Occurrence × PtsMap × Nat),
      coveragePass pv letters occs pts table s = some res →
      (occResults res.2.1).Sublist (occResults occs) ∧
      (∀ p, p ∉ occResults occs → recordGet res.1 p = recordGet table p) ∧
      ((occResults occs).Nodup →
        (∀ c ∈ letters, ∃ p, p ∈ occResults occs ∧ recordGet res.1 p = some c) ∧
        (∀ p, (recordGet res.1 p).isSome ↔
          (recordGet table p).isSome ∨
            (p ∈ occResults occs ∧ p ∉ occResults res.2.1))) ∧
      ((tableKeys table).Pairwise (· < ·) → (tableKeys res.1).Pairwise (· < ·)) := by
  intro letters
  induction letters with
  | nil =>
    intro occs pts table s res h
    simp only [coveragePass, Option.some_inj] at h
    subst h
    refine ⟨List.Sublist.refl _, fun p _ => rfl, fun hnd => ⟨by simp, ?_⟩, fun hs => hs⟩
    intro p
    simp
  | cons letter rest ih =>
    intro occs pts table s res h
    simp only [coveragePass] at h
    -- name the chosen index uniformly over the two findIdx? outcomes
    rcases hf : occs.findIdx? (coverageFits pv pts letter) with _ | i <;>
      rw [hf] at h
    case none =>
      exact coveragePass_spec_step pv letter rest ih occs pts table s res
        (randIndex (nextRand s).1 occs.length) (nextRand s).2 h
    case some =>
      exact coveragePass_spec_step pv letter rest ih occs pts table s res i s h
where
  /-- The shared step argument, parametric in the chosen index and the
  post-draw generator state. -/
  coveragePass_spec_step (pv : ℚ) (letter : Char) (rest : List Char)
      (ih : ∀ (occs : List Occurrence) (pts : PtsMap) (table : DecodingTable)
        (s : Nat) (res : DecodingTable × List Occurrence × PtsMap × Nat),
        coveragePass pv rest occs pts table s = some res →
        (occResults res.2.1).Sublist (occResults occs) ∧
        (∀ p, p ∉ occResults occs → recordGet res.1 p = recordGet table p) ∧
        ((occResults occs).Nodup →
          (∀ c ∈ rest, ∃ p, p ∈ occResults occs ∧ recordGet res.1 p = some c) ∧
          (∀ p, (recordGet res.1 p).isSome ↔
            (recordGet table p).isSome ∨
              (p ∈ occResults occs ∧ p ∉ occResults res.2.1))) ∧
        ((tableKeys table).Pairwise (· < ·) →
          (tableKeys res.1).Pairwise (· < ·)))
      (occs : List Occurrence) (pts : PtsMap) (table : DecodingTable) (s : Nat)
      (res : DecodingTable × List Occurrence × PtsMap × Nat) (idx s1 : Nat)
      (h : (match occs[idx]? with
        | none => none
        | some occ =>
          coveragePass pv rest (occs.eraseIdx idx)
            (if ptsLt (ptsSub pts letter occ.times) letter pv then
              ptsDel (ptsSub pts letter occ.times) letter
             else ptsSub pts letter occ.times)
            (recordSet table occ.result letter) s1) = some res) :
      (occResults res.2.1).Sublist (occResults occs) ∧
      (∀ p, p ∉ occResults occs → recordGet res.1 p = recordGet table p) ∧
      ((occResults occs).Nodup →
        (∀ c, c ∈ letter :: rest → ∃ p, p ∈ occResults occs ∧
          recordGet res.1 p = some c) ∧
        (∀ p, (recordGet res.1 p).isSome ↔
          (recordGet table p).isSome ∨
            (p ∈ occResults occs ∧ p ∉ occResults res.2.1))) ∧
      ((tableKeys table).Pairwise (· < ·) →
        (tableKeys res.1).Pairwise (· < ·)) := by
    rcases hg : occs[idx]? with _ | occ <;> rw [hg] at h
    · exact absurd h (by simp)
    rcases List.getElem?_eq_some_iff.1 hg with ⟨hidx, hocc⟩
    have hmem : occ ∈ occs := List.getElem?_mem hg
    have hq : occ.result ∈ occResults occs :=
      List.mem_map_of_mem (·.result) hmem
    rcases ih _ _ _ _ _ h with ⟨hsub, hpres, hnodup, hsort⟩
    have herase_sub : (occResults (occs.eraseIdx idx)).Sublist (occResults occs) := by
      rw [occResults, eraseIdx_map_comm]
      exact List.eraseIdx_sublist _ _
    refine ⟨hsub.trans herase_sub, ?_, ?_, ?_⟩
    · intro p hp
      have hp1 : p ∉ occResults (occs.eraseIdx idx) :=
        fun hx => hp (herase_sub.subset hx)
      rw [hpres p hp1]
      exact recordGet_recordSet_ne table _ (fun hpk => hp (hpk ▸ hq))
    · intro hnd
      have hnd1 : (occResults (occs.eraseIdx idx)).Nodup := by
        rw [occResults, eraseIdx_map_comm]
        exact ((List.eraseIdx_sublist _ _).nodup (by rwa [occResults] at hnd))
      have hqnot : occ.result ∉ occResults (occs.eraseIdx idx) := by
        have hb : idx < (occs.map (·.result)).length := by simpa using hidx
        have hocc' : (occs.map (·.result))[idx] = occ.result := by
          simp [List.getElem_map, hocc]
        rw [occResults, eraseIdx_map_comm, ← hocc']
        exact not_mem_eraseIdx_of_nodup (by rwa [occResults] at hnd) hb
      rcases hnodup hnd1 with ⟨hcov, hiff⟩
      constructor
      · intro c hc
        rcases List.mem_cons.1 hc with hc | hc
        · subst hc
          refine ⟨occ.result, hq, ?_⟩
          rw [hpres _ hqnot, recordGet_recordSet_self]
        · rcases hcov c hc with ⟨p, hp1, hp2⟩
          exact ⟨p, herase_sub.subset hp1, hp2⟩
      · intro p
        rw [hiff p, recordGet_isSome_recordSet]
        constructor
        · rintro ((hs | hpk) | ⟨hin, hout⟩)
          · exact Or.inl hs
          · exact Or.inr ⟨hpk ▸ hq, hpk ▸ fun hx => hqnot (hsub.subset hx)⟩
          · exact Or.inr ⟨herase_sub.subset hin, hout⟩
        · rintro (hs | ⟨hin, hout⟩)
          · exact Or.inl (Or.inl hs)
          · by_cases hpk : p = occ.result
            · exact Or.inl (Or.inr hpk)
            · refine Or.inr ⟨?_, hout⟩
              have hb : idx < (occs.map (·.result)).length := by simpa using hidx
              rw [occResults, eraseIdx_map_comm]
              refine mem_eraseIdx_of_ne hb hin ?_
              intro hcontr
              apply hpk
              rw [hcontr]
              simp [List.getElem_map, hocc]
    · intro hs
      exact hsort (tableKeys_recordSet_sorted _ _ hs)

/-- The structural invariants of the fill pass: keys outside the remaining
pool are untouched; with a duplicate-free pool, the output keys are exactly
the input keys plus the pool; sortedness of the table keys is preserved. -/
theorem fillPass_spec (pv : ℚ) :
    ∀ (occs : List Occurrence) (pts : PtsMap) (table : DecodingTable) (s : Nat),
      (∀ p, p ∉ occResults occs →
        recordGet (fillPass pv occs pts table s).1 p = recordGet table p) ∧
      ((occResults occs).Nodup →
        ∀ p, (recordGet (fillPass pv occs pts table s).1 p).isSome ↔
          (recordGet table p).isSome ∨ p ∈ occResults occs) ∧
      ((tableKeys table).Pairwise (· < ·) →
        (tableKeys (fillPass pv occs pts table s).1).Pairwise (· < ·)) := by
  intro occs
  induction occs with
  | nil =>
    intro pts table s
    exact ⟨fun p _ => rfl, fun _ p => by simp [fillPass, occResults], fun h => h⟩
  | cons occ rest ih =>
    intro pts table s
    have step : ∀ (c : Char) (pts2 : PtsMap) (s2 : Nat),
        (∀ p, p ∉ occResults (occ :: rest) →
          recordGet (fillPass pv rest pts2 (recordSet table occ.result c) s2).1 p =
            recordGet table p) ∧
        ((occResults (occ :: rest)).Nodup →
          ∀ p, (recordGet
              (fillPass pv rest pts2 (recordSet table occ.result c) s2).1 p).isSome ↔
            (recordGet table p).isSome ∨ p ∈ occResults (occ :: rest)) ∧
        ((tableKeys table).Pairwise (· < ·) →
          (tableKeys
            (fillPass pv rest pts2 (recordSet table occ.result c) s2).1).Pairwise
              (· < ·)) := by
      intro c pts2 s2
      rcases ih pts2 (recordSet table occ.result c) s2 with ⟨ihp, ihk, ihs⟩
      refine ⟨?_, ?_, fun hs => ihs (tableKeys_recordSet_sorted _ _ hs)⟩
      · intro p hp
        have hp1 : p ∉ occResults rest := by
          intro hx
          exact hp (by simpa [occResults] using Or.inr (by simpa [occResults] using hx))
        have hp2 : p ≠ occ.result := by
          intro hx; exact hp (by simp [occResults, hx])
        rw [ihp p hp1]
        exact recordGet_recordSet_ne table _ hp2
      · intro hnd p
        have hnd1 : (occResults rest).Nodup := by
          simpa [occResults] using (List.nodup_cons.1 (by simpa [occResults] using hnd)).2
        rw [ihk hnd1 p, recordGet_isSome_recordSet]
        simp only [occResults, List.map_cons, List.mem_cons]
        tauto
    simp only [fillPass]
    by_cases hl : (pts.map (·.1)).length > 0
    · simp only [if_pos hl]
      exact step _ _ _
    · simp only [if_neg hl]
      exact step _ _ _

/-! ## The attainable products -/

theorem mem_multiplications (g : Nat) (m : Multiplication) :
    m ∈ multiplications g ↔ 1 ≤ m.i ∧ m.i ≤ g ∧ 1 ≤ m.j ∧ m.j ≤ g := by
  obtain ⟨a, b⟩ := m
  simp only [multiplications, List.mem_flatMap, List.mem_map, List.mem_range]
  constructor
  · rintro ⟨i, hi, j, hj, hm⟩
    cases hm
    omega
  · rintro ⟨h1, h2, h3, h4⟩
    refine ⟨a - 1, by omega, b - 1, by omega, ?_⟩
    simp only [Multiplication.mk.injEq]
    omega

theorem mem_productList (g p : Nat) :
    p ∈ productList g ↔
      ∃ i j, 1 ≤ i ∧ i ≤ g ∧ 1 ≤ j ∧ j ≤ g ∧ i * j = p := by
  simp only [productList, List.mem_filter, List.mem_range'_1, List.any_eq_true,
    beq_iff_eq]
  constructor
  · rintro ⟨_, m, hm, hp⟩
    rcases (mem_multiplications g m).1 hm with ⟨h1, h2, h3, h4⟩
    exact ⟨m.i, m.j, h1, h2, h3, h4, hp⟩
  · rintro ⟨i, j, h1, h2, h3, h4, h5⟩
    refine ⟨⟨?_, ?_⟩, ⟨i, j⟩, (mem_multiplications g ⟨i, j⟩).2 ⟨h1, h2, h3, h4⟩, h5⟩
    · have : 1 * 1 ≤ i * j := Nat.mul_le_mul h1 h3
      omega
    · have : i * j ≤ g * g := Nat.mul_le_mul h2 h4
      omega

theorem productList_nodup (g : Nat) : (productList g).Nodup :=
  (List.nodup_range' (s := 1) (n := g * g)).filter _

theorem occResults_occurrences (g : Nat) :
    occResults (occurrences g) = productList g := by
  simp [occResults, occurrences, List.map_map, Function.comp_def]

/-- Every product attainable on the 8×8 grid is attainable on any larger
grid, and the 8×8 grid already has 30 ≥ 27 distinct products; hence every
grid of size at least 8 has at least 27 distinct products. -/
theorem productList_length_ge (g : Nat) (hg : 8 ≤ g) :
    27 ≤ (productList g).length := by
  have hsub : productList 8 ⊆ productList g := by
    intro p hp
    rcases (mem_productList 8 p).1 hp with ⟨i, j, h1, h2, h3, h4, h5⟩
    exact (mem_productList g p).2 ⟨i, j, h1, by omega, h3, by omega, h5⟩
  have h8 : (productList 8).length = 30 := by decide
  have hle : (productList 8).length ≤ (productList g).length :=
    (List.subperm_of_subset (productList_nodup 8) hsub).length_le
  omega

theorem occurrences_length_ge (g : Nat) (hg : 8 ≤ g) :
    27 ≤ (occurrences g).length := by
  have : (occurrences g).length = (productList g).length := by
    simp [occurrences]
  rw [this]
  exact productList_length_ge g hg

theorem letterKeys_length : letterKeys.length = 27 := rfl

/-! ## The main structure theorem for `generateDecodingTable` -/

theorem generateDecodingTable_eq (g : Nat) (seed : Int) :
    generateDecodingTable g seed =
      (coveragePass (pointValueOf g)
          (shuffle letterKeys (initializeRandom seed)).1 (occurrences g)
          (initialPts g) [] (shuffle letterKeys (initializeRandom seed)).2).map
        (fun res =>
          (fillPass (pointValueOf g) res.2.1 res.2.2.1 res.1 res.2.2.2).1) := rfl

/-- Whenever the grid has at least 27 distinct products, the generator
succeeds and returns a table whose keys are exactly the attainable products,
sorted; and every letter of the distribution (space included) appears as a
value. -/
theorem generateDecodingTable_spec (g : Nat) (seed : Int)
    (hlen : 27 ≤ (occurrences g).length) :
    ∃ t, generateDecodingTable g seed = some t ∧
      (∀ c ∈ letterKeys, ∃ p, p ∈ productList g ∧ recordGet t p = some c) ∧
      (∀ p, (recordGet t p).isSome ↔ p ∈ productList g) ∧
      (tableKeys t).Pairwise (· < ·) := by
  have hshlen : ((shuffle letterKeys (initializeRandom seed)).1).length = 27 := by
    rw [(shuffle_perm letterKeys (initializeRandom seed)).length_eq]
    exact letterKeys_length
  have hle : ((shuffle letterKeys (initializeRandom seed)).1).length ≤
      (occurrences g).length := by omega
  have hiso := coveragePass_isSome (pointValueOf g)
    (shuffle letterKeys (initializeRandom seed)).1 (occurrences g)
    (initialPts g) [] (shuffle letterKeys (initializeRandom seed)).2 hle
  rcases hcov : coveragePass (pointValueOf g)
      (shuffle letterKeys (initializeRandom seed)).1 (occurrences g)
      (initialPts g) [] (shuffle letterKeys (initializeRandom seed)).2 with _ | res
  · rw [hcov] at hiso; simp at hiso
  have hnd : (occResults (occurrences g)).Nodup := by
    rw [occResults_occurrences]; exact productList_nodup g
  rcases coveragePass_spec (pointValueOf g) _ _ _ _ _ _ hcov with
    ⟨hsub, _, hnodup, hsort⟩
  rcases hnodup hnd with ⟨hcover, hiff⟩
  rcases fillPass_spec (pointValueOf g) res.2.1 res.2.2.1 res.1 res.2.2.2 with
    ⟨hfp, hfk, hfs⟩
  have hndrem : (occResults res.2.1).Nodup := hsub.nodup hnd
  refine ⟨(fillPass (pointValueOf g) res.2.1 res.2.2.1 res.1 res.2.2.2).1, ?_, ?_, ?_, ?_⟩
  · rw [generateDecodingTable_eq, hcov]
    rfl
  · -- letter coverage survives the fill pass
    intro c hc
    have hc1 : c ∈ (shuffle letterKeys (initializeRandom seed)).1 :=
      ((shuffle_perm letterKeys (initializeRandom seed)).mem_iff).2 hc
    rcases hcover c hc1 with ⟨p, hp1, hp2⟩
    have hpsome : (recordGet res.1 p).isSome := by rw [hp2]; rfl
    have hnotrem : p ∉ occResults res.2.1 := by
      rcases (hiff p).1 hpsome with hemp | ⟨_, hout⟩
      · simp [recordGet] at hemp
      · exact hout
    refine ⟨p, by rwa [occResults_occurrences] at hp1, ?_⟩
    rw [hfp p hnotrem]
    exact hp2
  · -- key set is exactly the attainable products
    intro p
    rw [hfk hndrem p, hiff p]
    simp only [recordGet, List.find?_nil, Option.map_none', Option.isSome_none,
      Bool.false_eq_true, false_or]
    constructor
    · rintro (⟨hin, _⟩ | hin)
      · rwa [occResults_occurrences] at hin
      · have := hsub.subset hin
        rwa [occResults_occurrences] at this
    · intro hin
      by_cases hrem : p ∈ occResults res.2.1
      · exact Or.inr hrem
      · exact Or.inl ⟨by rwa [occResults_occurrences], hrem⟩
  · exact hfs (hsort List.Pairwise.nil)

/-! ## Character-level facts -/

theorem charOfNat_toNat {n : Nat} (h : n < 55296) : (Char.ofNat n).toNat = n := by
  unfold Char.ofNat
  rw [dif_pos (Or.inl (by omega))]
  simp [Char.ofNatAux, Char.toNat, UInt32.toNat, BitVec.toNat_ofNatLt]

theorem char_toNat_inj {a b : Char} (h : a.toNat = b.toNat) : a = b := by
  apply Char.ext
  apply UInt32.ext
  simpa [Char.toNat, UInt32.toNat] using h

theorem digitChar_toNat {d : Nat} (h : d < 10) : (digitChar d).toNat = 48 + d :=
  charOfNat_toNat (by omega)

theorem natDigits_ne_nil (n : Nat) : natDigits n ≠ [] := by
  rw [natDigits_eq]
  split_ifs <;> simp

theorem natDigits_toNat (n : Nat) : ∀ c ∈ natDigits n, 48 ≤ c.toNat ∧ c.toNat ≤ 57 := by
  induction n using Nat.strong_induction_on with
  | _ n ih =>
    rw [natDigits_eq]
    split_ifs with h
    · intro c hc
      rcases List.mem_singleton.1 hc with rfl
      rw [digitChar_toNat h]
      omega
    · intro c hc
      rcases List.mem_append.1 hc with hc | hc
      · exact ih (n / 10) (Nat.div_lt_self (by omega) (by omega)) c hc
      · rcases List.mem_singleton.1 hc with rfl
        rw [digitChar_toNat (Nat.mod_lt n (by omega))]
        have := Nat.mod_lt n (show 0 < 10 by omega)
        omega

theorem natDigits_not_space (n : Nat) : ∀ c ∈ natDigits n, c ≠ ' ' := by
  intro c hc hsp
  rcases natDigits_toNat n c hc with ⟨h1, _⟩
  rw [hsp] at h1
  have hsp32 : (' ' : Char).toNat = 32 := rfl
  omega

theorem natDigits_isDigitOrSpace (n : Nat) :
    ∀ c ∈ natDigits n, isDigitOrSpace c = true := by
  intro c hc
  rcases natDigits_toNat n c hc with ⟨h1, h2⟩
  simp [isDigitOrSpace]
  omega

/-- Reading the decimal representation of `n` back yields `n`. -/
theorem foldl_natDigits (n : Nat) :
    (natDigits n).foldl (fun acc c => acc * 10 + (c.toNat - 48)) 0 = n := by
  induction n using Nat.strong_induction_on with
  | _ n ih =>
    rw [natDigits_eq]
    split_ifs with h
    · simp [digitChar_toNat h]
    · rw [List.foldl_append]
      rw [ih (n / 10) (Nat.div_lt_self (by omega) (by omega))]
      simp only [List.foldl_cons, List.foldl_nil]
      rw [digitChar_toNat (Nat.mod_lt n (by omega))]
      omega

theorem jsParseInt_natDigits (n : Nat) : jsParseInt (natDigits n) = some n := by
  have htake : (natDigits n).takeWhile (fun c => 48 ≤ c.toNat && c.toNat ≤ 57) =
      natDigits n := by
    apply List.takeWhile_eq_self_iff.2
    intro c hc
    rcases natDigits_toNat n c hc with ⟨h1, h2⟩
    simp
    omega
  simp only [jsParseInt, htake,
    if_neg (by simp [List.isEmpty_iff, natDigits_ne_nil n] : ¬ ((natDigits n).isEmpty = true))]
  rw [foldl_natDigits n]

theorem decodeToken_natDigits {n : Nat} (h : 1 ≤ n) :
    decodeToken (natDigits n) = some n := by
  rw [decodeToken, jsParseInt_natDigits]
  simp
  omega

theorem decodeToken_nil : decodeToken [] = none := rfl

/-! ## Tokenization facts -/

theorem splitRunsAux_nil (acc : List Char) : splitRunsAux [] acc = [acc.reverse] := by
  rw [splitRunsAux]

theorem splitRunsAux_space (rest : List Char) (acc : List Char) :
    splitRunsAux (' ' :: rest) acc =
      acc.reverse :: splitRunsAux (rest.dropWhile (· = ' ')) [] := by
  rw [splitRunsAux]
  simp

theorem splitRunsAux_nonspace {c : Char} (hc : c ≠ ' ') (rest acc : List Char) :
    splitRunsAux (c :: rest) acc = splitRunsAux rest (c :: acc) := by
  rw [splitRunsAux]
  simp [hc]

/-- A token with no spaces is traversed whole. -/
theorem splitRunsAux_no_space :
    ∀ (t : List Char), (∀ c ∈ t, c ≠ ' ') → ∀ acc,
      splitRunsAux t acc = [acc.reverse ++ t]
  | [], _, acc => by simp [splitRunsAux_nil]
  | c :: rest, h, acc => by
    rw [splitRunsAux_nonspace (h c (by simp)) rest acc]
    rw [splitRunsAux_no_space rest (fun x hx => h x (by simp [hx])) (c :: acc)]
    simp

/-- A no-space token followed by a space separator yields the token and
continues after the following space run. -/
theorem splitRunsAux_sep :
    ∀ (t : List Char), (∀ c ∈ t, c ≠ ' ') → ∀ (z acc : List Char),
      splitRunsAux (t ++ ' ' :: z) acc =
        (acc.reverse ++ t) :: splitRunsAux (z.dropWhile (· = ' ')) []
  | [], _, z, acc => by simpa using splitRunsAux_space z acc
  | c :: rest, h, z, acc => by
    rw [List.cons_append, splitRunsAux_nonspace (h c (by simp)) _ acc]
    rw [splitRunsAux_sep rest (fun x hx => h x (by simp [hx])) z (c :: acc)]
    simp

/-- `splitRuns` inverts `joinTokens` on lists of nonempty space-free tokens. -/
theorem splitRuns_joinTokens :
    ∀ (toks : List (List Char)), toks ≠ [] →
      (∀ t ∈ toks, t ≠ [] ∧ ∀ c ∈ t, c ≠ ' ') →
      splitRuns (joinTokens toks) = toks
  | [], h, _ => absurd rfl h
  | [t], _, hall => by
    rw [joinTokens, splitRuns,
      splitRunsAux_no_space t (hall t (by simp)).2 []]
    simp
  | t :: u :: rest, _, hall => by
    rw [joinTokens, splitRuns,
      splitRunsAux_sep t (hall t (by simp)).2 (joinTokens (u :: rest)) []]
    have hu : u ≠ [] := (hall u (by simp)).1
    have huc : ∀ c ∈ u, c ≠ ' ' := (hall u (by simp)).2
    have hdrop : (joinTokens (u :: rest)).dropWhile (· = ' ') =
        joinTokens (u :: rest) := by
      rcases u with _ | ⟨c, u1⟩
      · exact absurd rfl hu
      · have hcns : ¬ (c = ' ') := huc c (by simp)
        rcases rest with _ | ⟨v, rest1⟩
        · rw [joinTokens]
          rw [List.dropWhile_cons_of_neg (by simpa using hcns)]
        · rw [joinTokens, List.cons_append]
          rw [List.dropWhile_cons_of_neg (by simpa using hcns)]
    rw [hdrop]
    have hIH := splitRuns_joinTokens (u :: rest) (by simp)
      (fun x hx => hall x (by simp [List.mem_cons] at hx ⊢; tauto))
    rw [splitRuns] at hIH
    rw [hIH]
    simp

/-- Dropping tokens that fail the filter is the same as filtering first when
the dropped tokens always map to `none`. -/
theorem filterMap_eq_filterMap_filter {α β : Type} (f : α → Option β)
    (p : α → Bool) (hf : ∀ x, p x = false → f x = none) :
    ∀ l : List α, l.filterMap f = (l.filter p).filterMap f := by
  intro l
  induction l with
  | nil => rfl
  | cons x rest ih =>
    rcases hp : p x with _ | _
    · rw [List.filterMap_cons, hf x hp, List.filter_cons_of_neg (by simp [hp])]
      exact ih
    · rw [List.filterMap_cons, List.filter_cons_of_pos hp, List.filterMap_cons]
      rw [ih]

/-- The nonempty tokens of a string of digits and spaces. -/
def tokensNE (l : List Char) : List (List Char) :=
  (splitRuns l).filter (fun t => ! t.isEmpty)

theorem tokensNE_nil : tokensNE [] = [] := by
  rw [tokensNE, splitRuns, splitRunsAux_nil]
  simp

theorem tokensNE_cons_space (l : List Char) :
    tokensNE (' ' :: l) = tokensNE (l.dropWhile (· = ' ')) := by
  rw [tokensNE, splitRuns, splitRunsAux_space l []]
  rw [List.filter_cons_of_neg (by simp)]
  rfl

/-- Leading space runs do not change the nonempty tokens. -/
theorem tokensNE_dropWhile (l : List Char) :
    tokensNE (l.dropWhile (· = ' ')) = tokensNE l := by
  induction l with
  | nil => simp
  | cons c rest ih =>
    by_cases hc : c = ' '
    · subst hc
      rw [List.dropWhile_cons_of_pos (by simp)]
      rw [ih, tokensNE_cons_space rest, ih]
    · rw [List.dropWhile_cons_of_neg (by simpa using hc)]

theorem tokensNE_one_leading_space (l : List Char) :
    tokensNE (' ' :: l) = tokensNE l := by
  rw [tokensNE_cons_space l, tokensNE_dropWhile l]

/-- Trailing space runs do not change the nonempty tokens (stated over
`splitRunsAux` with an explicit length bound for the induction). -/
theorem tokensNE_aux_append_spaces :
    ∀ (n : Nat) (x : List Char), x.length ≤ n → ∀ (sp acc : List Char),
      (∀ c ∈ sp, c = ' ') →
      (splitRunsAux (x ++ sp) acc).filter (fun t => ! t.isEmpty) =
        (splitRunsAux x acc).filter (fun t => ! t.isEmpty) := by
  intro n
  induction n with
  | zero =>
    intro x hx sp acc hsp
    have hnil : x = [] := List.length_eq_zero.1 (by omega)
    subst hnil
    simp only [List.nil_append]
    cases sp with
    | nil => rfl
    | cons c sp1 =>
      have hc : c = ' ' := hsp c (by simp)
      subst hc
      rw [splitRunsAux_space, splitRunsAux_nil]
      have hdw : sp1.dropWhile (· = ' ') = [] :=
        List.dropWhile_eq_nil_iff.2 (fun c hc => by simpa using hsp c (by simp [hc]))
      rw [hdw, splitRunsAux_nil]
      rw [List.filter_cons, List.filter_cons, List.filter_cons]
      simp
  | succ m ih =>
    intro x hx sp acc hsp
    cases x with
    | nil => exact ih [] (by simp) sp acc hsp
    | cons c x1 =>
      by_cases hc : c = ' '
      · subst hc
        rw [List.cons_append, splitRunsAux_space (x1 ++ sp) acc,
          splitRunsAux_space x1 acc]
        rw [List.filter_cons, List.filter_cons]
        have htails :
            (splitRunsAux ((x1 ++ sp).dropWhile (· = ' ')) []).filter
                (fun t => ! t.isEmpty) =
              (splitRunsAux (x1.dropWhile (· = ' ')) []).filter
                (fun t => ! t.isEmpty) := by
          rcases hdx : x1.dropWhile (· = ' ') with _ | ⟨d, y⟩
          · have hx1 : ∀ e ∈ x1, e = ' ' := by
              intro e he
              have := List.dropWhile_eq_nil_iff.1 hdx e he
              simpa using this
            have hall : (x1 ++ sp).dropWhile (· = ' ') = [] := by
              refine List.dropWhile_eq_nil_iff.2 (fun e he => ?_)
              rcases List.mem_append.1 he with h | h
              · simpa using hx1 e h
              · simpa using hsp e h
            rw [hall]
          · have hdapp : (x1 ++ sp).dropWhile (· = ' ') =
                x1.dropWhile (· = ' ') ++ sp := by
              rw [List.dropWhile_append, hdx]
              simp
            rw [hdapp, hdx]
            have hlen : (d :: y).length ≤ m := by
              have h1 :=
                (List.dropWhile_suffix (l := x1)
                  (fun e => decide (e = ' '))).sublist.length_le
              rw [hdx] at h1
              simp only [List.length_cons] at h1 hx ⊢
              omega
            exact ih (d :: y) hlen sp [] hsp
        rw [htails]
      · rw [List.cons_append, splitRunsAux_nonspace hc _ acc,
          splitRunsAux_nonspace hc x1 acc]
        exact ih x1 (by simp only [List.length_cons] at hx; omega) sp
          (c :: acc) hsp

theorem tokensNE_append_spaces (x sp : List Char) (hsp : ∀ c ∈ sp, c = ' ') :
    tokensNE (x ++ sp) = tokensNE x :=
  tokensNE_aux_append_spaces x.length x (le_refl _) sp [] hsp

theorem tokensNE_leading_spaces :
    ∀ (sp : List Char), (∀ c ∈ sp, c = ' ') → ∀ y, tokensNE (sp ++ y) = tokensNE y
  | [], _, _ => rfl
  | c :: sp1, h, y => by
    have hc : c = ' ' := h c (by simp)
    subst hc
    rw [List.cons_append, tokensNE_one_leading_space]
    exact tokensNE_leading_spaces sp1 (fun x hx => h x (by simp [hx])) y

/-! ## The decode pipeline -/

theorem jsToLower_of_isDigitOrSpace {c : Char} (h : isDigitOrSpace c = true) :
    jsToLower c = c := by
  rw [jsToLower, if_neg]
  simp only [isDigitOrSpace, Bool.or_eq_true, Bool.and_eq_true, decide_eq_true_eq,
    beq_iff_eq] at h
  rintro ⟨h1, h2⟩
  rcases h with ⟨h3, h4⟩ | h3 <;> omega

theorem isDigitOrSpace_jsToLower (c : Char) :
    isDigitOrSpace (jsToLower c) = isDigitOrSpace c := by
  rw [jsToLower]
  split_ifs with h
  · have ht : (Char.ofNat (c.toNat + 32)).toNat = c.toNat + 32 :=
      charOfNat_toNat (by omega)
    simp only [isDigitOrSpace, ht]
    have hl : (decide (48 ≤ c.toNat + 32) && decide (c.toNat + 32 ≤ 57)
        || c.toNat + 32 == 32) = false := by
      simp only [Bool.or_eq_false_iff, Bool.and_eq_false_iff, decide_eq_false_iff_not,
        beq_eq_false_iff_ne]
      omega
    have hr : (decide (48 ≤ c.toNat) && decide (c.toNat ≤ 57)
        || c.toNat == 32) = false := by
      simp only [Bool.or_eq_false_iff, Bool.and_eq_false_iff, decide_eq_false_iff_not,
        beq_eq_false_iff_ne]
      omega
    rw [hl, hr]
  · rfl

theorem filter_map_jsToLower (l : List Char) :
    (l.map jsToLower).filter isDigitOrSpace = l.filter isDigitOrSpace := by
  rw [List.filter_map]
  have hp : (isDigitOrSpace ∘ jsToLower) = isDigitOrSpace :=
    funext fun c => isDigitOrSpace_jsToLower c
  rw [hp]
  conv_rhs => rw [← List.map_id (l.filter isDigitOrSpace)]
  apply List.map_congr_left
  intro c hc
  exact jsToLower_of_isDigitOrSpace (List.mem_filter.1 hc).2

theorem filter_all_space_of_ws {w : List Char} (hw : ∀ c ∈ w, jsWhitespace c = true) :
    ∀ c ∈ w.filter isDigitOrSpace, c = ' ' := by
  intro c hc
  rcases List.mem_filter.1 hc with ⟨hcw, hcd⟩
  have hws := hw c hcw
  simp only [jsWhitespace, List.mem_cons, decide_eq_true_eq, List.mem_singleton,
    List.not_mem_nil, or_false] at hws
  simp only [isDigitOrSpace, Bool.or_eq_true, Bool.and_eq_true, decide_eq_true_eq,
    beq_iff_eq] at hcd
  have h32 : c.toNat = 32 := by
    rcases hcd with ⟨h1, h2⟩ | h1 <;> omega
  exact char_toNat_inj (by rw [h32]; rfl)

/-- Dropping the leading whitespace does not change the nonempty numeric
tokens of the stripped string. -/
theorem tokensNE_filter_dropWhile_ws (l : List Char) :
    tokensNE ((l.dropWhile jsWhitespace).filter isDigitOrSpace) =
      tokensNE (l.filter isDigitOrSpace) := by
  conv_rhs => rw [← List.takeWhile_append_dropWhile (p := jsWhitespace) (l := l)]
  rw [List.filter_append]
  rw [tokensNE_leading_spaces _
    (filter_all_space_of_ws (fun c hc => List.mem_takeWhile_imp hc)) _]

/-- The full trim does not change the nonempty numeric tokens of the stripped
string. -/
theorem tokensNE_filter_jsTrim (l : List Char) :
    tokensNE ((jsTrim l).filter isDigitOrSpace) =
      tokensNE (l.filter isDigitOrSpace) := by
  rw [← tokensNE_filter_dropWhile_ws l]
  set y := l.dropWhile jsWhitespace with hy
  have hdecomp : y = jsTrim l ++ (y.reverse.takeWhile jsWhitespace).reverse := by
    rw [jsTrim, ← hy]
    conv_lhs => rw [← List.reverse_reverse y]
    conv_lhs => rw [← List.takeWhile_append_dropWhile (p := jsWhitespace) (l := y.reverse)]
    rw [List.reverse_append]
  conv_rhs => rw [hdecomp]
  rw [List.filter_append]
  rw [tokensNE_append_spaces _ _
    (filter_all_space_of_ws (fun c hc =>
      List.mem_takeWhile_imp (List.mem_reverse.1 hc)))]

/-- `decodeMessage` computes exactly the best-effort pipeline the claim
describes: strip, split into nonempty tokens, parse base-10, drop zeros and
failures, look up each surviving product with the empty string for misses. -/
theorem decodeChars_eq_claim (l : List Char) (table : DecodingTable) :
    decodeChars l table = decodeCharsClaim l table := by
  rw [decodeChars, decodeCharsClaim]
  simp only [decodeResult]
  have hsan : ((jsTrim l).map jsToLower).filter isDigitOrSpace =
      (jsTrim l).filter isDigitOrSpace := filter_map_jsToLower (jsTrim l)
  rw [hsan]
  have hcode : (splitRuns ((jsTrim l).filter isDigitOrSpace)).filterMap decodeToken =
      (tokensNE ((jsTrim l).filter isDigitOrSpace)).filterMap decodeToken := by
    apply filterMap_eq_filterMap_filter decodeToken (fun t => ! t.isEmpty)
    intro x hx
    have hxe : x = [] := by
      rcases x with _ | _
      · rfl
      · simp at hx
    rw [hxe]
    rfl
  rw [hcode, tokensNE_filter_jsTrim l]
  rfl

/-! ## The encoder -/

/-- When some entry of the table carries the requested letter, `encodeLetter`
succeeds and emits the decimal key string of an entry carrying that letter. -/
theorem encodeLetter_spec {letter : Char} {table : DecodingTable} (s : Nat)
    (hmatch : ∃ e ∈ table, e.2 = letter) :
    ∃ p, encodeLetter letter table s = some (natDigits p, (nextRand s).2) ∧
      (p, letter) ∈ table := by
  rw [encodeLetter]
  have hne : table.filter (fun e => e.2 == letter) ≠ [] := by
    rcases hmatch with ⟨e, he, hev⟩
    exact List.ne_nil_of_mem (List.mem_filter.2 ⟨he, by simp [hev]⟩)
  have hlen : 0 < (table.filter (fun e => e.2 == letter)).length :=
    List.length_pos.2 hne
  have hidx : randIndex (nextRand s).1 (table.filter (fun e => e.2 == letter)).length <
      (table.filter (fun e => e.2 == letter)).length :=
    randIndex_lt (nextRand_lt s) hlen
  rw [List.getElem?_eq_getElem hidx]
  refine ⟨((table.filter (fun e => e.2 == letter))[randIndex (nextRand s).1
    (table.filter (fun e => e.2 == letter)).length]).1, rfl, ?_⟩
  have hemem := List.getElem_mem hidx
  rcases List.mem_filter.1 hemem with ⟨het, hev⟩
  have heq : (table.filter (fun e => e.2 == letter))[randIndex (nextRand s).1
      (table.filter (fun e => e.2 == letter)).length] =
      (((table.filter (fun e => e.2 == letter))[randIndex (nextRand s).1
        (table.filter (fun e => e.2 == letter)).length]).1, letter) := by
    have hv := beq_iff_eq.1 hev
    exact Prod.ext rfl hv
  rw [heq] at hemem het
  exact het

/-- Encoding a list of covered characters succeeds and produces, for each
character, the decimal representation of a product mapped to it. -/
theorem encodeChars_spec (table : DecodingTable) :
    ∀ (l : List Char) (s : Nat),
      (∀ c ∈ l, ∃ e ∈ table, e.2 = c) →
      ∃ toks, encodeChars l table s = some toks ∧
        List.Forall₂ (fun c tok => ∃ p, (p, c) ∈ table ∧ tok = natDigits p) l toks := by
  intro l
  induction l with
  | nil => intro s _; exact ⟨[], rfl, List.Forall₂.nil⟩
  | cons c rest ih =>
    intro s hall
    rcases encodeLetter_spec s (hall c (by simp)) with ⟨p, henc, hpmem⟩
    rcases ih (nextRand s).2 (fun x hx => hall x (by simp [hx])) with ⟨toks, htoks, hfa⟩
    refine ⟨natDigits p :: toks, ?_, List.Forall₂.cons ⟨p, hpmem, rfl⟩ hfa⟩
    rw [encodeChars, henc]
    show (encodeChars rest table (nextRand s).2).map (fun x => natDigits p :: x) =
      some (natDigits p :: toks)
    rw [htoks]
    rfl

theorem joinTokens_chars :
    ∀ (toks : List (List Char)), (∀ t ∈ toks, ∀ c ∈ t, isDigitOrSpace c = true) →
      ∀ c ∈ joinTokens toks, isDigitOrSpace c = true
  | [], _, c, hc => by simp [joinTokens] at hc
  | [t], h, c, hc => h t (by simp) c (by simpa [joinTokens] using hc)
  | t :: u :: rest, h, c, hc => by
    rw [joinTokens] at hc
    rcases List.mem_append.1 hc with hc | hc
    · exact h t (by simp) c hc
    · rcases List.mem_cons.1 hc with hc | hc
      · subst hc; rfl
      · exact joinTokens_chars (u :: rest)
          (fun x hx => h x (by simp only [List.mem_cons] at hx ⊢; tauto)) c hc

theorem forall₂_mem_right {α β : Type} {R : α → β → Prop} :
    ∀ {l1 : List α} {l2 : List β}, List.Forall₂ R l1 l2 → ∀ b ∈ l2, ∃ a, R a b := by
  intro l1 l2 h
  induction h with
  | nil => intro b hb; simp at hb
  | cons hab _ ih =>
    intro b hb
    rcases List.mem_cons.1 hb with hb | hb
    · exact ⟨_, hb ▸ hab⟩
    · exact ih b hb

/-- Rendering the parsed tokens of an encoder output through the table
reproduces the encoded characters. -/
theorem render_tokens_core (table : DecodingTable)
    (hnd : (tableKeys table).Nodup)
    (hkeys : ∀ p, (recordGet table p).isSome → 1 ≤ p) :
    ∀ {l : List Char} {toks : List (List Char)},
      List.Forall₂ (fun c tok => ∃ p, (p, c) ∈ table ∧ tok = natDigits p) l toks →
      ((toks.filterMap decodeToken).map
        (fun r => renderJoin (recordGet table r))).flatten = l := by
  intro l toks hfa
  induction hfa with
  | nil => rfl
  | cons hct hrest ih =>
    rcases hct with ⟨p, hpmem, htok⟩
    subst htok
    have hget : recordGet table p = some _ := recordGet_eq_some_of_mem hnd hpmem
    have hp1 : 1 ≤ p := hkeys p (by rw [hget]; rfl)
    rw [List.filterMap_cons, decodeToken_natDigits hp1]
    simp only [List.map_cons, List.flatten_cons]
    rw [hget, ih]
    rfl

/-- The round-trip core: decoding the joined encoder output reproduces the
character list, for any table with sorted keys all at least 1. -/
theorem decode_joinTokens (table : DecodingTable)
    (hsorted : (tableKeys table).Pairwise (· < ·))
    (hkeys : ∀ p, (recordGet table p).isSome → 1 ≤ p) :
    ∀ (l : List Char) (toks : List (List Char)),
      List.Forall₂ (fun c tok => ∃ p, (p, c) ∈ table ∧ tok = natDigits p) l toks →
      decodeChars (joinTokens toks) table = l := by
  have hnd : (tableKeys table).Nodup := pairwise_lt_nodup hsorted
  intro l toks hfa
  have htokfacts : ∀ tok ∈ toks, tok ≠ [] ∧ (∀ c ∈ tok, c ≠ ' ') ∧
      (∀ c ∈ tok, isDigitOrSpace c = true) := by
    intro tok htok
    rcases forall₂_mem_right hfa tok htok with ⟨c, p, hp, htokp⟩
    subst htokp
    exact ⟨natDigits_ne_nil p, natDigits_not_space p, natDigits_isDigitOrSpace p⟩
  rw [decodeChars_eq_claim, decodeCharsClaim]
  have hfilter : (joinTokens toks).filter isDigitOrSpace = joinTokens toks := by
    rw [List.filter_eq_self]
    intro c hc
    exact joinTokens_chars toks (fun t ht => (htokfacts t ht).2.2) c hc
  rw [hfilter]
  cases toks with
  | nil =>
    have hl : l = [] := by cases hfa; rfl
    subst hl
    rw [show joinTokens ([] : List (List Char)) = [] from rfl, splitRuns,
      splitRunsAux_nil]
    rfl
  | cons t0 rest =>
    have hsplit : splitRuns (joinTokens (t0 :: rest)) = t0 :: rest :=
      splitRuns_joinTokens (t0 :: rest) (by simp)
        (fun t ht => ⟨(htokfacts t ht).1, (htokfacts t ht).2.1⟩)
    rw [hsplit]
    have hfne : (t0 :: rest).filter (fun t => ! t.isEmpty) = t0 :: rest := by
      rw [List.filter_eq_self]
      intro t ht
      have := (htokfacts t ht).1
      simpa [List.isEmpty_iff]
    rw [hfne]
    exact render_tokens_core table hnd hkeys hfa

/-! ## Sanitized characters are covered letters -/

theorem mem_letterKeys_of_upper {c : Char} (h1 : 65 ≤ c.toNat) (h2 : c.toNat ≤ 90) :
    c ∈ letterKeys := by
  have hb : ∀ n, n < 91 → 65 ≤ n → Char.ofNat n ∈ letterKeys := by decide
  have hc : Char.ofNat c.toNat = c := char_toNat_inj (charOfNat_toNat (by omega))
  rw [← hc]
  exact hb c.toNat (by omega) h1

theorem space_mem_letterKeys : (' ' : Char) ∈ letterKeys := by decide

theorem sanitizeEncode_mem_letterKeys (l : List Char) :
    ∀ c ∈ sanitizeEncode l, c ∈ letterKeys := by
  intro c hc
  rw [sanitizeEncode] at hc
  rcases List.mem_map.1 hc with ⟨b, _, hbc⟩
  by_cases hups : isUpperOrSpace b = true
  · rw [if_pos hups] at hbc
    subst hbc
    simp only [isUpperOrSpace, Bool.or_eq_true, Bool.and_eq_true, decide_eq_true_eq,
      beq_iff_eq] at hups
    rcases hups with ⟨h1, h2⟩ | h32
    · exact mem_letterKeys_of_upper h1 h2
    · have : b = ' ' := char_toNat_inj (by rw [h32]; rfl)
      rw [this]
      exact space_mem_letterKeys
  · rw [if_neg hups] at hbc
    subst hbc
    exact space_mem_letterKeys

/-- Message-level round trip: for a table produced by the generator on a grid
with full letter coverage, encoding always succeeds and decoding the result
reproduces the normalized message. -/
theorem encode_decode_roundtrip (g : Nat) (seed : Int) (M : String)
    (hg1 : 8 ≤ g) :
    ∃ t enc, generateDecodingTable g seed = some t ∧
      encodeMessage M t = some enc ∧ decodeMessage enc t = normalizeMessage M := by
  rcases generateDecodingTable_spec g seed (occurrences_length_ge g hg1) with
    ⟨t, hgdt, hcov, hkeys, hsort⟩
  have hkeys1 : ∀ p, (recordGet t p).isSome → 1 ≤ p := by
    intro p hp
    rcases (mem_productList g p).1 ((hkeys p).1 hp) with ⟨i, j, h1, _, h3, _, h5⟩
    have := Nat.mul_le_mul h1 h3
    omega
  have hall : ∀ c ∈ sanitizeEncode M.data, ∃ e ∈ t, e.2 = c := by
    intro c hc
    rcases hcov c (sanitizeEncode_mem_letterKeys M.data c hc) with ⟨p, _, hpg⟩
    exact ⟨(p, c), mem_of_recordGet_eq_some hpg, rfl⟩
  rcases encodeChars_spec t (sanitizeEncode M.data) (initializeRandom (hash M)) hall
    with ⟨toks, htoks, hfa⟩
  refine ⟨t, ⟨joinTokens toks⟩, hgdt, ?_, ?_⟩
  · rw [encodeMessage]
    show (encodeChars (sanitizeEncode M.data) t (initializeRandom (hash M))).map
      (fun toks => (⟨joinTokens toks⟩ : String)) = some ⟨joinTokens toks⟩
    rw [htoks]
    rfl
  · rw [decodeMessage, normalizeMessage]
    exact congrArg String.mk (decode_joinTokens t hsort hkeys1 _ toks hfa)

/-! ## Failure behaviour of the encoder -/

/-- When a letter has no matching entry, `encodeLetter` throws. -/
theorem encodeLetter_none (letter : Char) (table : DecodingTable) (s : Nat)
    (h : ∀ e ∈ table, e.2 ≠ letter) : encodeLetter letter table s = none := by
  rw [encodeLetter]
  have hfil : table.filter (fun e => e.2 == letter) = [] := by
    rw [List.filter_eq_nil_iff]
    intro e he
    simpa using h e he
  rw [hfil]
  rfl

/-- A single uncovered letter anywhere in the input makes the whole encode
throw: no placeholder is emitted and no partial output survives. -/
theorem encodeChars_none (table : DecodingTable) :
    ∀ (l : List Char) (s : Nat), (∃ c ∈ l, ∀ e ∈ table, e.2 ≠ c) →
      encodeChars l table s = none := by
  intro l
  induction l with
  | nil => intro s h; simp at h
  | cons c0 rest ih =>
    intro s h
    rw [encodeChars]
    by_cases hc0 : ∀ e ∈ table, e.2 ≠ c0
    · rw [encodeLetter_none c0 table s hc0]
    · rcases he : encodeLetter c0 table s with _ | res
      · rfl
      · have hrest : ∃ c ∈ rest, ∀ e ∈ table, e.2 ≠ c := by
          rcases h with ⟨c, hcmem, hcnone⟩
          rcases List.mem_cons.1 hcmem with hcc | hcc
          · exact absurd (hcc ▸ hcnone) hc0
          · exact ⟨c, hcc, hcnone⟩
        obtain ⟨tok, s1⟩ := res
        show (encodeChars rest table s1).map (fun x => tok :: x) = none
        rw [ih s1 hrest]
        rfl

/-! ## PRNG range -/

theorem mulberryValue_lt (seed : Int) (n : Nat) : mulberryValue seed n < M32 := by
  cases n with
  | zero => exact nextRand_lt _
  | succ m => exact nextRand_lt _

end MultCipher

namespace MultCipher

/-! ## The claims -/

/-- Claim C1: for every gridSize in [8, 20], every seed, and every message
composed only of characters `A`–`Z` and spaces, with
`table = generateDecodingTable(gridSize, seed)`,
`decode(encode(M, table), table)` equals `normalize(M)` — where `normalize`
trims, uppercases and replaces every character outside `A`–`Z` and space with
a space — exactly on every run.  (The generator is total on this range, so
the table is produced; encoding succeeds because the coverage pass covers
every letter.) -/
theorem claim1_roundtrip (g : Nat) (seed : Int) (M : String)
    (hg1 : 8 ≤ g) (_hg2 : g ≤ 20)
    (_hM : ∀ c ∈ M.data, (65 ≤ c.toNat ∧ c.toNat ≤ 90) ∨ c = ' ') :
    ∃ t enc, generateDecodingTable g seed = some t ∧
      encodeMessage M t = some enc ∧ decodeMessage enc t = normalizeMessage M :=
  encode_decode_roundtrip g seed M hg1

/-- Witness for C1 at `gridSize = 8`, `seed = 1`, `M = "HELLO WORLD"`. -/
theorem claim1_roundtrip_witness :
    (8 : Nat) ≤ 8 ∧ (8 : Nat) ≤ 20 ∧
      (∀ c ∈ "HELLO WORLD".data, (65 ≤ c.toNat ∧ c.toNat ≤ 90) ∨ c = ' ') ∧
      ∃ t enc, generateDecodingTable 8 1 = some t ∧
        encodeMessage "HELLO WORLD" t = some enc ∧
        decodeMessage enc t = normalizeMessage "HELLO WORLD" :=
  ⟨by norm_num, by norm_num, by decide,
    claim1_roundtrip 8 1 "HELLO WORLD" (by norm_num) (by norm_num) (by decide)⟩

/-- Claim C2: two calls to `generateDecodingTable(gridSize, seed)` produce
identical tables.  The source's only mutable state is the Mulberry32 closure
created afresh inside each call from `seed` alone, so the embedding is a pure
function of `(gridSize, seed)` and the two calls are definitionally the same
value — same keys and same letter per key. -/
theorem claim2_deterministic (gridSize : Nat) (seed : Int) :
    generateDecodingTable gridSize seed = generateDecodingTable gridSize seed := rfl

/-- Claim C3: for every gridSize ≥ 8 and every seed, every letter `A`–`Z`
appears as a value of the generated table at least once. -/
theorem claim3_letter_coverage (g : Nat) (seed : Int) (c : Char)
    (hg : 8 ≤ g) (hc : c ∈ lettersAZ) :
    ∃ t p, generateDecodingTable g seed = some t ∧ recordGet t p = some c := by
  rcases generateDecodingTable_spec g seed (occurrences_length_ge g hg) with
    ⟨t, hgdt, hcov, _, _⟩
  rcases hcov c (List.mem_filter.1 hc).1 with ⟨p, _, hp⟩
  exact ⟨t, p, hgdt, hp⟩

/-- Witness for C3 at `gridSize = 8`, `seed = 1`, letter `E`. -/
theorem claim3_letter_coverage_witness :
    (8 : Nat) ≤ 8 ∧ ('E' : Char) ∈ lettersAZ ∧
      ∃ t p, generateDecodingTable 8 1 = some t ∧ recordGet t p = some 'E' :=
  ⟨by norm_num, by decide, claim3_letter_coverage 8 1 'E' (by norm_num) (by decide)⟩

/-- Claim C4: for every gridSize in [8, 20] and every seed, the key set of
the generated table is exactly the set of attainable products
`{i*j : 1 ≤ i, j ≤ gridSize}`; being a record, the table assigns each such
key exactly one letter. -/
theorem claim4_key_set (g : Nat) (seed : Int) (p : Nat)
    (hg1 : 8 ≤ g) (_hg2 : g ≤ 20) :
    (∃ t, generateDecodingTable g seed = some t ∧ (recordGet t p).isSome) ↔
      ∃ i j, 1 ≤ i ∧ i ≤ g ∧ 1 ≤ j ∧ j ≤ g ∧ i * j = p := by
  rcases generateDecodingTable_spec g seed (occurrences_length_ge g hg1) with
    ⟨t, hgdt, _, hkeys, _⟩
  constructor
  · rintro ⟨t1, hgdt1, hsome⟩
    have ht : t1 = t := Option.some_inj.1 (hgdt1.symm.trans hgdt)
    subst ht
    exact (mem_productList g p).1 ((hkeys p).1 hsome)
  · intro hattain
    exact ⟨t, hgdt, (hkeys p).2 ((mem_productList g p).2 hattain)⟩

/-- Witness for C4 at `gridSize = 8`, `seed = 1`, product 64. -/
theorem claim4_key_set_witness :
    (8 : Nat) ≤ 8 ∧ (8 : Nat) ≤ 20 ∧
      ((∃ t, generateDecodingTable 8 1 = some t ∧ (recordGet t 64).isSome) ↔
        ∃ i j, 1 ≤ i ∧ i ≤ 8 ∧ 1 ≤ j ∧ j ≤ 8 ∧ i * j = 64) :=
  ⟨by norm_num, by norm_num, claim4_key_set 8 1 64 (by norm_num) (by norm_num)⟩

/-- Counterexample to claim C5 (tokens have the form `"{i}x{j}"`): encoding
`"A"` against the table mapping product 6 to `A` emits the token `"6"` — the
decimal key itself, which contains no `x` separator and names no factor
pair. -/
theorem claim5_counterexample :
    encodeMessage "A" [((6 : Nat), 'A')] = some "6" ∧ ∀ c ∈ "6".data, c ≠ 'x' :=
  ⟨by decide, by decide⟩

/-- Claim C5 as amended: each per-letter token emitted by `encodeLetter` is
the radix-10 decimal representation of the chosen product itself (a key of
the table whose value is the letter); no factor pair and no `x` separator is
emitted. -/
theorem claim5_amended (letter : Char) (table : DecodingTable) (s : Nat)
    (res : List Char × Nat) (h : encodeLetter letter table s = some res) :
    ∃ p, (p, letter) ∈ table ∧ res.1 = natDigits p := by
  rw [encodeLetter] at h
  rcases hg : (table.filter (fun e => e.2 == letter))[randIndex (nextRand s).1
      (table.filter (fun e => e.2 == letter)).length]? with _ | e
  · rw [hg] at h
    exact absurd h (by simp)
  · rw [hg] at h
    have hmem := List.getElem?_mem hg
    rcases List.mem_filter.1 hmem with ⟨het, hev⟩
    refine ⟨e.1, ?_, ?_⟩
    · have he : e = (e.1, letter) := Prod.ext rfl (beq_iff_eq.1 hev)
      rw [← he]
      exact het
    · rw [← Option.some_inj.1 h]

/-- Witness for the amended C5 at letter `A`, table `{6: A}`, state 0. -/
theorem claim5_amended_witness :
    ∃ p, (p, 'A') ∈ [((6 : Nat), 'A')] ∧ (['6'], (nextRand 0).2).1 = natDigits p :=
  claim5_amended 'A' [((6 : Nat), 'A')] 0 (['6'], (nextRand 0).2) (by decide)

/-- Counterexample to claim C6 (encode emits a placeholder and continues):
encoding `"A"` against the empty table throws — the model returns `none`, no
placeholder token and no partial result. -/
theorem claim6_counterexample : encodeMessage "A" [] = none := by decide

/-- Claim C6 as amended: when encode encounters a letter with zero matching
products in the table, it throws (`matchingResults[chosenResultIndex]` is
`undefined` and indexing it raises a `TypeError`): the whole encode aborts
and no partial result is produced. -/
theorem claim6_amended (message : String) (table : DecodingTable)
    (h : ∃ c ∈ sanitizeEncode message.data, ∀ e ∈ table, e.2 ≠ c) :
    encodeMessage message table = none := by
  rw [encodeMessage]
  show (encodeChars (sanitizeEncode message.data) table
    (initializeRandom (hash message))).map _ = none
  rw [encodeChars_none table _ _ h]
  rfl

/-- Witness for the amended C6 at message `"A"` and the empty table. -/
theorem claim6_amended_witness :
    (∃ c ∈ sanitizeEncode "A".data, ∀ e ∈ ([] : DecodingTable), e.2 ≠ c) ∧
      encodeMessage "A" ([] : DecodingTable) = none :=
  ⟨by decide, claim6_amended "A" [] (by decide)⟩

set_option maxRecDepth 40000 in
/-- Counterexample to claim C7 (no hard lower bound; degenerate tables for
pathological sizes): at `gridSize = 1` the coverage pass exhausts the single
occurrence and indexes `undefined`, so `generateDecodingTable` throws instead
of returning an all-space table. -/
theorem claim7_counterexample : generateDecodingTable 1 1 = none := by decide

/-- Claim C7 as amended: `generateDecodingTable` performs no gridSize
validation, but it only returns a table when the grid has at least 27
distinct products (as every gridSize ≥ 8 does); for smaller, pathological
sizes the coverage pass throws rather than producing a degenerate
(all-space) table. -/
theorem claim7_amended (g : Nat) (seed : Int)
    (h : 27 ≤ (occurrences g).length) :
    (generateDecodingTable g seed).isSome := by
  rcases generateDecodingTable_spec g seed h with ⟨t, hgdt, _⟩
  rw [hgdt]
  rfl

/-- Witness for the amended C7 at `gridSize = 8`, `seed = 1`. -/
theorem claim7_amended_witness :
    27 ≤ (occurrences 8).length ∧ (generateDecodingTable 8 1).isSome :=
  ⟨by decide, claim7_amended 8 1 (by decide)⟩

/-- Claim C8: for every input string and every decoding table, decode never
aborts: it strips every character that is not a digit or a space, splits on
runs of whitespace, parses each token as a base-10 integer, silently drops
tokens that parse to zero or fail to parse, and every surviving integer that
is not a key of the table contributes the empty string (`decodeCharsClaim`
is that pipeline, written from the claim; `decodeMessage` is the source
translation, a total function). -/
theorem claim8_decode_best_effort (message : String) (table : DecodingTable) :
    decodeMessage message table = ⟨decodeCharsClaim message.data table⟩ :=
  congrArg String.mk (decodeChars_eq_claim message.data table)

/-- Claim C9: for every 32-bit integer seed (zero and negative included),
every value of the generator returned by `initializeRandom` lies in `[0, 1)`;
the sequence is a pure function of the seed and the call index, so the same
seed yields the identical sequence. -/
theorem claim9_prng_range (seed : Int) (n : Nat) :
    0 ≤ randomStream seed n ∧ randomStream seed n < 1 := by
  rw [randomStream]
  constructor
  · positivity
  · rw [div_lt_one (by norm_num [M32])]
    exact_mod_cast mulberryValue_lt seed n

/-- Claim C10: for every gridSize ≥ 8 and every seed, the generated table
maps at least one product to the space character: space participates in the
coverage pass exactly like the 26 letters. -/
theorem claim10_space_coverage (g : Nat) (seed : Int) (hg : 8 ≤ g) :
    ∃ t p, generateDecodingTable g seed = some t ∧ recordGet t p = some ' ' := by
  rcases generateDecodingTable_spec g seed (occurrences_length_ge g hg) with
    ⟨t, hgdt, hcov, _, _⟩
  rcases hcov ' ' space_mem_letterKeys with ⟨p, _, hp⟩
  exact ⟨t, p, hgdt, hp⟩

/-- Witness for C10 at `gridSize = 8`, `seed = 1`. -/
theorem claim10_space_coverage_witness :
    (8 : Nat) ≤ 8 ∧
      ∃ t p, generateDecodingTable 8 1 = some t ∧ recordGet t p = some ' ' :=
  ⟨by norm_num, claim10_space_coverage 8 1 (by norm_num)⟩

end MultCipher
